import Mathlib

/-!
Verification of the 1-D Schrödinger solver (finite-element and shooting
methods) of the `Devoir3_Schrodinger` repository.

Grid points, matrix entries and wavefunction samples are embedded as exact
rationals (reals where a square root is needed); floating-point rounding is
out of scope.  Sparse matrices are embedded as total entry functions
`ℕ → ℕ → ℚ` that vanish outside the declared `(n-2) × (n-2)` range, which
mirrors a `dok_matrix` whose unwritten entries are zero.  External numerical
backends (`scipy.integrate.quad`, the generalized eigensolver) are passed
as explicit function parameters, mirroring the library boundary described
in the design document.
-/

/-- Accessor for the `k`-th grid point, `self.points[k]` on an in-range
index (out-of-range reads default to `0`; all uses are guarded). -/
def xval (points : List ℚ) (k : ℕ) : ℚ := points.getD k 0

/-- `np.any((points[1:] - points[:-1]) < 0.0)`: some adjacent difference of
the point list is strictly negative. -/
def hasNegDiff : List ℚ → Bool
  | x :: y :: rest => (decide (y - x < 0)) || hasNegDiff (y :: rest)
  | _ => false

/-- Error raised by `Grid.__init__`; the `ValueError("Points must be
sorted.")` of the code plays the role of the design document's ordering
error for unsorted grid points. -/
inductive GridError where
  | orderingError
deriving DecidableEq

/-- `Grid.__init__`: reject the point list when some adjacent difference is
strictly negative, otherwise store it unchanged. -/
def gridInit (points : List ℚ) : Except GridError (List ℚ) :=
  if hasNegDiff points then .error .orderingError else .ok points

/-- Entry `(i, j)` of an `m × m` matrix assembled the way all three
`matrice_*_interne` methods fill their `dok_matrix`: one loop writes
`diag (site - 1)` on the main diagonal, a second loop writes `off (site - 1)`
at `(site - 1, site)` and `(site, site - 1)`, and every entry never written
stays zero. -/
def tridiagEntry (m : ℕ) (diag off : ℕ → ℚ) (i j : ℕ) : ℚ :=
  if i < m ∧ j < m then
    if i = j then diag i
    else if j = i + 1 then off i
    else if i = j + 1 then off j
    else 0
  else 0

/-- `Grid.matrice_masse_interne`: for `site = 1 .. n-2` the diagonal entry
`(site-1, site-1)` is `(points[site+1] - points[site-1]) / 3`; for
`site = 1 .. n-3` the entries `(site-1, site)` and `(site, site-1)` are
`(points[site+1] - points[site]) / 6`.  Below, `i = site - 1`. -/
def matrice_masse_interne (points : List ℚ) : ℕ → ℕ → ℚ :=
  tridiagEntry (points.length - 2)
    (fun i => (xval points (i + 2) - xval points i) / 3)
    (fun i => (xval points (i + 2) - xval points (i + 1)) / 6)

/-- `Grid.matrice_laplacienne_interne`: for `site = 1 .. n-2` the diagonal
entry `(site-1, site-1)` is the sum of `1 / (points[i] - points[i+1])` for
`i ∈ {site-1, site}`; for `site = 1 .. n-3` the entries `(site-1, site)`
and `(site, site-1)` are `1 / (points[site+1] - points[site])`.  Below,
`i = site - 1`. -/
def matrice_laplacienne_interne (points : List ℚ) : ℕ → ℕ → ℚ :=
  tridiagEntry (points.length - 2)
    (fun i => 1 / (xval points i - xval points (i + 1))
      + 1 / (xval points (i + 1) - xval points (i + 2)))
    (fun i => 1 / (xval points (i + 2) - xval points (i + 1)))

/-- `pente_pos` inside `Grid.matrice_potentiel`: the ascending ramp
`(x - points[site-1]) / (points[site] - points[site-1])`. -/
def pente_pos (points : List ℚ) (x : ℚ) (site : ℕ) : ℚ :=
  (x - xval points (site - 1)) / (xval points site - xval points (site - 1))

/-- `pente_neg` inside `Grid.matrice_potentiel`: the descending ramp
`(points[site+1] - x) / (points[site+1] - points[site])`. -/
def pente_neg (points : List ℚ) (x : ℚ) (site : ℕ) : ℚ :=
  (xval points (site + 1) - x) / (xval points (site + 1) - xval points site)

/-- `Grid.matrice_potentiel`, parametrized by the quadrature backend
`quad f a b` standing for `scipy.integrate.quad(f, a, b)[0]`: for
`site = 1 .. n-2` the diagonal entry `(site-1, site-1)` is
`quad(potentiel · pente_pos(·, site)², points[site-1], points[site])`
plus `quad(potentiel · pente_neg(·, site)², points[site], points[site+1])`;
for `site = 1 .. n-3` the entries `(site-1, site)` and `(site, site-1)` are
`quad(potentiel · pente_pos(·, site+1) · pente_neg(·, site), points[site],
points[site+1])`.  Below, `i = site - 1`. -/
def matrice_potentiel (quad : (ℚ → ℚ) → ℚ → ℚ → ℚ) (potentiel : ℚ → ℚ)
    (points : List ℚ) : ℕ → ℕ → ℚ :=
  tridiagEntry (points.length - 2)
    (fun i =>
      quad (fun x => potentiel x * pente_pos points x (i + 1) ^ 2)
        (xval points i) (xval points (i + 1))
      + quad (fun x => potentiel x * pente_neg points x (i + 1) ^ 2)
        (xval points (i + 1)) (xval points (i + 2)))
    (fun i =>
      quad (fun x => potentiel x * pente_pos points x (i + 2)
          * pente_neg points x (i + 1))
        (xval points (i + 1)) (xval points (i + 2)))

/-- Boole 5-point Newton–Cotes rule, a closed quadrature rule that is exact
for polynomials of degree at most five; it stands in for the
double-precision-accurate `scipy.integrate.quad` on the concrete polynomial
integrands of the test suite. -/
def boole (f : ℚ → ℚ) (a b : ℚ) : ℚ :=
  (b - a) / 90 *
    (7 * f a + 32 * f (a + (b - a) / 4) + 12 * f (a + (b - a) / 2)
      + 32 * f (a + 3 * (b - a) / 4) + 7 * f b)

/-- Some denominator `points[i] - points[i+1]`, for `i ∈ {site-1, site}`
with `site = 1 .. n-2`, occurring in the diagonal entries of
`matrice_laplacienne_interne` is zero, i.e. one of the divisions
`1.0 / (self.points[i] - self.points[i + 1])` is a division by zero. -/
def laplacienneZeroDenom (points : List ℚ) : Prop :=
  ∃ site, 1 ≤ site ∧ site ≤ points.length - 2 ∧
    (xval points (site - 1) - xval points site = 0 ∨
      xval points site - xval points (site + 1) = 0)

/-- The `Grid` object: its only attribute is the point list stored by
`__init__`. -/
structure Grid where
  points : List ℚ

/-- The `matrice_masse_interne` method as a state transformer on the grid
object: the body only reads `self.points` and writes to a fresh local
matrix, never to `self`, so the call returns the assembled matrix together
with the grid object it leaves behind. -/
def Grid.masse_call (g : Grid) : (ℕ → ℕ → ℚ) × Grid :=
  (matrice_masse_interne g.points, g)

/-- The `matrice_laplacienne_interne` method as a state transformer on the
grid object (the body never writes to `self`). -/
def Grid.laplacienne_call (g : Grid) : (ℕ → ℕ → ℚ) × Grid :=
  (matrice_laplacienne_interne g.points, g)

/-- The `matrice_potentiel` method as a state transformer on the grid
object (the body never writes to `self`). -/
def Grid.potentiel_call (g : Grid) (quad : (ℚ → ℚ) → ℚ → ℚ → ℚ)
    (potentiel : ℚ → ℚ) : (ℕ → ℕ → ℚ) × Grid :=
  (matrice_potentiel quad potentiel g.points, g)

/-- Modelled from the spec: the body of `schrodinger` in
`src/shooting.py` raises `NotImplementedError` right after unpacking
`psi, dpsi = state`; the documented contract maps the state `(psi, dpsi)`,
the position `x`, the potential and the trial energy to the derivative
pair `(dpsi, 2 * (V(x) - E) * psi)`, in that order. -/
def schrodinger (state : ℚ × ℚ) (x : ℚ) (potential : ℚ → ℚ)
    (energy : ℚ) : ℚ × ℚ :=
  (state.2, 2 * (potential x - energy) * state.1)

/-- Matrix–vector product of the leading `m × m` block of an entry
function with the first `m` entries of a vector. -/
def matVec (A : ℕ → ℕ → ℚ) (m : ℕ) (v : List ℚ) : List ℚ :=
  (List.range m).map fun i => ((List.range m).map fun j => A i j * v.getD j 0).sum

/-- A generalized eigenpair of `(H, M)` on the `m`-dimensional interior
space: an interior vector `psi` of length `m` with an eigenvalue `E` such
that `H psi = E * (M psi)` componentwise. -/
def eigenPairOK (H M : ℕ → ℕ → ℚ) (m : ℕ) (p : ℚ × List ℚ) : Prop :=
  p.2.length = m ∧ matVec H m p.2 = (matVec M m p.2).map fun y => p.1 * y

/-- Error raised when the requested eigenstate count exceeds the number of
interior degrees of freedom (the design document's insufficient-dimension
error). -/
inductive FemError where
  | insufficientDimension
deriving DecidableEq

/-- Interior Hamiltonian `H = -L/2 + V` assembled from the Laplacian and
potential matrices (kinetic convention `-ħ²/2m Δ` with `ħ = m = 1`). -/
def hamiltonien (quad : (ℚ → ℚ) → ℚ → ℚ → ℚ) (potentiel : ℚ → ℚ)
    (points : List ℚ) : ℕ → ℕ → ℚ :=
  fun i j => -(matrice_laplacienne_interne points i j) / 2
    + matrice_potentiel quad potentiel points i j

/-- The generalized eigenpairs the eigensolver backend reports for the
interior problem `H psi = E M psi` of a given potential and grid. -/
def femPairs (eig : (ℕ → ℕ → ℚ) → (ℕ → ℕ → ℚ) → ℕ → List (ℚ × List ℚ))
    (quad : (ℚ → ℚ) → ℚ → ℚ → ℚ) (potential : ℚ → ℚ) (points : List ℚ) :
    List (ℚ × List ℚ) :=
  eig (hamiltonien quad potential points) (matrice_masse_interne points)
    (points.length - 2)

/-- Modelled from the spec: `solve_shrodinger_using_fem` in `src/fem.py`
raises `NotImplementedError`; per its contract it assembles `M` and
`H = -L/2 + V` on the interior points, obtains the generalized eigenpairs
of `H psi = E M psi` from the eigensolver backend `eig` (which, as in
`scipy.linalg.eigh`, reports all `n - 2` eigenpairs sorted by ascending
eigenvalue), pads every eigenvector with a zero at both boundaries, and
returns the `n_states` lowest eigenpairs; when `n_states` exceeds the
number `n - 2` of interior points it fails with the
insufficient-dimension error. -/
def solve_shrodinger_using_fem
    (eig : (ℕ → ℕ → ℚ) → (ℕ → ℕ → ℚ) → ℕ → List (ℚ × List ℚ))
    (quad : (ℚ → ℚ) → ℚ → ℚ → ℚ) (potential : ℚ → ℚ) (points : List ℚ)
    (n_states : ℕ) : Except FemError (List ℚ × List (List ℚ)) :=
  if points.length - 2 < n_states then .error .insufficientDimension
  else
    let pairs := (femPairs eig quad potential points).take n_states
    .ok (pairs.map Prod.fst, pairs.map fun p => 0 :: p.2 ++ [0])

/-- `np.sign` on exact rationals. -/
def signQ (q : ℚ) : Int := if q < 0 then -1 else if q = 0 then 0 else 1

/-- Modelled from the spec: the "standard bracketing root-finder
(bisection or Brent's method)" that `scope_roots` must call on a detected
bracket; embedded as fuel-bounded bisection that returns a bracket
endpoint where the function vanishes and otherwise halves the bracket,
keeping the sign change inside. -/
def bisect (f : ℚ → ℚ) : ℕ → ℚ → ℚ → ℚ
  | 0, a, b => (a + b) / 2
  | fuel + 1, a, b =>
    if f a = 0 then a
    else if f b = 0 then b
    else if signQ (f ((a + b) / 2)) = signQ (f a) then
      bisect f fuel ((a + b) / 2) b
    else bisect f fuel a ((a + b) / 2)

/-- The fixed scan increment `delta = 1e-3` of the `scope_roots`
docstring. -/
def scanDelta : ℚ := 1 / 1000

/-- Modelled from the spec: the scanning loop of `scope_roots` in
`src/tools.py` (whose body raises `NotImplementedError`): at iteration
`k` it extends the outward scan by one `scanDelta` step on each side of
`x0`, compares the sign of `f` at the new point with the sign at the
previous (consecutive) evaluation of that side, hands the first detected
sign-change bracket to the bracketing root-finder, and gives up with
`(x0, false)` when the iteration budget is exhausted. -/
def scope_go (f : ℚ → ℚ) (x0 : ℚ) : ℕ → ℕ → ℚ × Bool
  | _, 0 => (x0, false)
  | k, fuel + 1 =>
    if signQ (f (x0 + ((k : ℚ) + 1) * scanDelta))
        ≠ signQ (f (x0 + (k : ℚ) * scanDelta)) then
      (bisect f 60 (x0 + (k : ℚ) * scanDelta)
        (x0 + ((k : ℚ) + 1) * scanDelta), true)
    else if signQ (f (x0 - ((k : ℚ) + 1) * scanDelta))
        ≠ signQ (f (x0 - (k : ℚ) * scanDelta)) then
      (bisect f 60 (x0 - ((k : ℚ) + 1) * scanDelta)
        (x0 - (k : ℚ) * scanDelta), true)
    else
      scope_go f x0 (k + 1) fuel

/-- Modelled from the spec: `scope_roots` scans outward from `x0` in fixed
increments of `1e-3` for at most `max_iters` iterations; on detecting a
sign change between consecutive evaluations it returns
`(refined root, true)`, otherwise `(x0, false)` (the reference signature
also forwards extra `args` to `func`; they are absorbed into the closure
`f` here). -/
def scope_roots (f : ℚ → ℚ) (x0 : ℚ) (max_iters : ℕ) : ℚ × Bool :=
  scope_go f x0 0 max_iters

/-- The trapezoidal integral computed by `normalise` in `src/tools.py`:
`area = (1/2 * (temp[:-1] + temp[1:]) * dxs).sum()` with
`temp = state * state` and `dxs = xs[1:] - xs[:-1]`, i.e. the sum over
adjacent samples of `1/2 * (state_k² + state_{k+1}²) * (x_{k+1} - x_k)`. -/
noncomputable def trapArea : List ℝ → List ℝ → ℝ
  | s0 :: s1 :: ss, xs =>
    match xs with
    | x0 :: x1 :: xx =>
      1 / 2 * (s0 * s0 + s1 * s1) * (x1 - x0) + trapArea (s1 :: ss) (x1 :: xx)
    | _ => 0
  | _, _ => 0

/-- `normalise` in `src/tools.py`: divide the state by the square root of
its trapezoidal integral `area`. -/
noncomputable def normalise (state xs : List ℝ) : List ℝ :=
  state.map fun v => v / Real.sqrt (trapArea state xs)

section TridiagLemmas

theorem tridiagEntry_symm (m : ℕ) (diag off : ℕ → ℚ) (i j : ℕ) :
    tridiagEntry m diag off i j = tridiagEntry m diag off j i := by
  unfold tridiagEntry
  split_ifs <;> first | rfl | omega | (subst_vars; rfl)

theorem tridiagEntry_outside (m : ℕ) (diag off : ℕ → ℚ) (i j : ℕ)
    (h : m ≤ i ∨ m ≤ j) : tridiagEntry m diag off i j = 0 := by
  unfold tridiagEntry
  rw [if_neg (by omega)]

theorem tridiagEntry_far (m : ℕ) (diag off : ℕ → ℚ) (i j : ℕ)
    (h : i + 2 ≤ j ∨ j + 2 ≤ i) : tridiagEntry m diag off i j = 0 := by
  unfold tridiagEntry
  split_ifs <;> first | rfl | omega

theorem tridiagEntry_diag (m : ℕ) (diag off : ℕ → ℚ) (i : ℕ) (h : i < m) :
    tridiagEntry m diag off i i = diag i := by
  unfold tridiagEntry
  split_ifs <;> first | rfl | omega

theorem tridiagEntry_off (m : ℕ) (diag off : ℕ → ℚ) (i : ℕ)
    (h : i + 1 < m) :
    tridiagEntry m diag off i (i + 1) = off i ∧
      tridiagEntry m diag off (i + 1) i = off i := by
  constructor <;>
    · unfold tridiagEntry
      split_ifs <;> first | rfl | omega | (subst_vars; rfl)

end TridiagLemmas

/-- Adjacent grid points of a strictly increasing point list are strictly
increasing in `xval`. -/
theorem xval_lt_succ (points : List ℚ) (hinc : points.Chain' (· < ·))
    (k : ℕ) (hk : k + 1 < points.length) :
    xval points k < xval points (k + 1) := by
  have h := List.chain'_iff_get.mp hinc k (by omega)
  rw [xval, xval, List.getD_eq_getElem _ _ (by omega),
    List.getD_eq_getElem _ _ hk]
  simpa using h

/-- C1: for every grid built from a strictly increasing list of `n ≥ 3`
points, `matrice_masse_interne` is symmetric, vanishes outside the
`(n-2) × (n-2)` range and off the three central diagonals, its diagonal
entry at output index `i` (interior site `s = i + 1`) is
`(x_{s+1} - x_{s-1}) / 3`, its off-diagonal entries between sites `s` and
`s + 1` are `(x_{s+1} - x_s) / 6`, and on the points `[0,1,2,3,4]` it is
`[[2/3,1/6,0],[1/6,2/3,1/6],[0,1/6,2/3]]`. -/
theorem matrice_masse_interne_spec (points : List ℚ)
    (h3 : 3 ≤ points.length) (hinc : points.Chain' (· < ·)) :
    (∀ i j, matrice_masse_interne points i j = matrice_masse_interne points j i) ∧
    (∀ i j, points.length - 2 ≤ i ∨ points.length - 2 ≤ j →
      matrice_masse_interne points i j = 0) ∧
    (∀ i j, i + 2 ≤ j ∨ j + 2 ≤ i → matrice_masse_interne points i j = 0) ∧
    (∀ i, i < points.length - 2 →
      matrice_masse_interne points i i = (xval points (i + 2) - xval points i) / 3) ∧
    (∀ i, i + 1 < points.length - 2 →
      matrice_masse_interne points i (i + 1)
          = (xval points (i + 2) - xval points (i + 1)) / 6 ∧
        matrice_masse_interne points (i + 1) i
          = (xval points (i + 2) - xval points (i + 1)) / 6) ∧
    (∀ i, i < 3 → ∀ j, j < 3 →
      matrice_masse_interne [0, 1, 2, 3, 4] i j =
        ([[2/3, 1/6, 0], [1/6, 2/3, 1/6], [0, 1/6, 2/3]].getD i []).getD j 0) := by
  refine ⟨fun i j => tridiagEntry_symm _ _ _ i j,
    fun i j h => tridiagEntry_outside _ _ _ i j h,
    fun i j h => tridiagEntry_far _ _ _ i j h,
    fun i h => tridiagEntry_diag _ _ _ i h,
    fun i h => tridiagEntry_off _ _ _ i h, ?_⟩
  intro i hi j hj
  interval_cases i <;> interval_cases j <;>
    norm_num [matrice_masse_interne, tridiagEntry, xval]

/-- C1 witness: the theorem applied to the concrete strictly increasing
grid `[0,1,2,3,4]`, extracting the `(0,0)` diagonal entry. -/
theorem matrice_masse_interne_spec_witness :
    matrice_masse_interne [0, 1, 2, 3, 4] 0 0
      = (xval [0, 1, 2, 3, 4] 2 - xval [0, 1, 2, 3, 4] 0) / 3 :=
  (matrice_masse_interne_spec [0, 1, 2, 3, 4] (by norm_num)
    (by norm_num [List.chain'_cons])).2.2.2.1 0 (by norm_num)

/-- C2: for every grid built from a strictly increasing list of `n ≥ 3`
points, `matrice_laplacienne_interne` is symmetric, vanishes outside the
`(n-2) × (n-2)` range and off the three central diagonals, its diagonal
entry at output index `i` (interior site `s = i + 1`) is
`1/(x_{s-1} - x_s) + 1/(x_s - x_{s+1})` and is strictly negative, its
off-diagonal entries between sites `s` and `s + 1` are `1/(x_{s+1} - x_s)`,
and on the points `[0,1,2,3,4]` it is `[[-2,1,0],[1,-2,1],[0,1,-2]]`. -/
theorem matrice_laplacienne_interne_spec (points : List ℚ)
    (h3 : 3 ≤ points.length) (hinc : points.Chain' (· < ·)) :
    (∀ i j, matrice_laplacienne_interne points i j
      = matrice_laplacienne_interne points j i) ∧
    (∀ i j, points.length - 2 ≤ i ∨ points.length - 2 ≤ j →
      matrice_laplacienne_interne points i j = 0) ∧
    (∀ i j, i + 2 ≤ j ∨ j + 2 ≤ i → matrice_laplacienne_interne points i j = 0) ∧
    (∀ i, i < points.length - 2 →
      matrice_laplacienne_interne points i i
        = 1 / (xval points i - xval points (i + 1))
          + 1 / (xval points (i + 1) - xval points (i + 2))) ∧
    (∀ i, i < points.length - 2 → matrice_laplacienne_interne points i i < 0) ∧
    (∀ i, i + 1 < points.length - 2 →
      matrice_laplacienne_interne points i (i + 1)
          = 1 / (xval points (i + 2) - xval points (i + 1)) ∧
        matrice_laplacienne_interne points (i + 1) i
          = 1 / (xval points (i + 2) - xval points (i + 1))) ∧
    (∀ i, i < 3 → ∀ j, j < 3 →
      matrice_laplacienne_interne [0, 1, 2, 3, 4] i j =
        ([[-2, 1, 0], [1, -2, 1], [0, 1, -2]].getD i []).getD j 0) := by
  refine ⟨fun i j => tridiagEntry_symm _ _ _ i j,
    fun i j h => tridiagEntry_outside _ _ _ i j h,
    fun i j h => tridiagEntry_far _ _ _ i j h,
    fun i h => tridiagEntry_diag _ _ _ i h, ?_,
    fun i h => tridiagEntry_off _ _ _ i h, ?_⟩
  · intro i h
    unfold matrice_laplacienne_interne
    rw [tridiagEntry_diag _ _ _ i h]
    have h1 : xval points i < xval points (i + 1) :=
      xval_lt_succ points hinc i (by omega)
    have h2 : xval points (i + 1) < xval points (i + 2) :=
      xval_lt_succ points hinc (i + 1) (by omega)
    have d1 : 1 / (xval points i - xval points (i + 1)) < 0 :=
      one_div_neg.mpr (by linarith)
    have d2 : 1 / (xval points (i + 1) - xval points (i + 2)) < 0 :=
      one_div_neg.mpr (by linarith)
    linarith
  · intro i hi j hj
    interval_cases i <;> interval_cases j <;>
      norm_num [matrice_laplacienne_interne, tridiagEntry, xval]

/-- C2 witness: the theorem applied to the concrete strictly increasing
grid `[0,1,2,3,4]`, extracting strict negativity of the `(0,0)` entry. -/
theorem matrice_laplacienne_interne_spec_witness :
    matrice_laplacienne_interne [0, 1, 2, 3, 4] 0 0 < 0 :=
  (matrice_laplacienne_interne_spec [0, 1, 2, 3, 4] (by norm_num)
    (by norm_num [List.chain'_cons])).2.2.2.2.1 0 (by norm_num)

/-- `hasNegDiff` detects exactly the point lists that are not sorted in
non-decreasing order. -/
theorem hasNegDiff_eq_true_iff (l : List ℚ) :
    hasNegDiff l = true ↔ ¬ l.Chain' (· ≤ ·) := by
  induction l with
  | nil => simp [hasNegDiff]
  | cons x t ih =>
    cases t with
    | nil => simp [hasNegDiff]
    | cons y rest =>
      rw [hasNegDiff, Bool.or_eq_true, decide_eq_true_eq, ih,
        List.chain'_cons, sub_neg, not_and_or, ← not_le]

/-- C7: `Grid.__init__` fails with the ordering error exactly when the
point list has an adjacent pair with a strictly negative difference (is
not non-decreasing), and succeeds, storing the points unchanged, on every
non-decreasing point list. -/
theorem gridInit_spec (points : List ℚ) :
    (¬ points.Chain' (· ≤ ·) → gridInit points = .error .orderingError) ∧
    (points.Chain' (· ≤ ·) → gridInit points = .ok points) := by
  constructor
  · intro h
    rw [gridInit, if_pos ((hasNegDiff_eq_true_iff points).mpr h)]
  · intro h
    rw [gridInit, if_neg (fun hh => (hasNegDiff_eq_true_iff points).mp hh h)]

/-- C7 witness: the theorem applied to the unsorted list `[1, 0]` and the
sorted list `[0, 1]`. -/
theorem gridInit_spec_witness :
    gridInit [1, 0] = .error .orderingError ∧ gridInit [0, 1] = .ok [0, 1] :=
  ⟨(gridInit_spec [1, 0]).1 (by norm_num [List.chain'_cons]),
    (gridInit_spec [0, 1]).2 (by norm_num [List.chain'_cons])⟩

/-- C10: `Grid.__init__` accepts every non-decreasing point list (only a
strictly negative adjacent difference is rejected), in particular
`[0, 1, 1, 2]` with a repeated interior point; on that grid the diagonal
entries of `matrice_laplacienne_interne` evaluate an unguarded
`1 / (points[i] - points[i+1])` with a zero denominator. -/
theorem gridInit_accepts_equal_adjacent :
    (∀ points : List ℚ, points.Chain' (· ≤ ·) → gridInit points = .ok points) ∧
    gridInit [0, 1, 1, 2] = .ok [0, 1, 1, 2] ∧
    laplacienneZeroDenom [0, 1, 1, 2] := by
  refine ⟨fun points h => ?_, by norm_num [gridInit, hasNegDiff], 1, ?_, ?_, ?_⟩
  · rw [gridInit, if_neg (fun hh => (hasNegDiff_eq_true_iff points).mp hh h)]
  · norm_num
  · norm_num
  · exact Or.inr (by norm_num [xval])

/-- C10 witness: the theorem applied to the non-decreasing concrete list
`[2, 2]`. -/
theorem gridInit_accepts_equal_adjacent_witness :
    gridInit [2, 2] = .ok [2, 2] :=
  gridInit_accepts_equal_adjacent.1 [2, 2] (by norm_num [List.chain'_cons])

/-- C9: each matrix-assembly method leaves the grid object (hence its
point list) unchanged, and calling the same method again on the grid it
returns yields the identical matrix. -/
theorem grid_methods_frame (g : Grid) (quad : (ℚ → ℚ) → ℚ → ℚ → ℚ)
    (potentiel : ℚ → ℚ) :
    (g.masse_call.2 = g ∧ g.laplacienne_call.2 = g ∧
      (g.potentiel_call quad potentiel).2 = g) ∧
    (g.masse_call.2.masse_call.1 = g.masse_call.1 ∧
      g.laplacienne_call.2.laplacienne_call.1 = g.laplacienne_call.1 ∧
      ((g.potentiel_call quad potentiel).2.potentiel_call quad potentiel).1
        = (g.potentiel_call quad potentiel).1) :=
  ⟨⟨rfl, rfl, rfl⟩, ⟨rfl, rfl, rfl⟩⟩

/-- C5: `schrodinger` is a pure function of its four arguments and returns
exactly the pair `(dpsi, 2 * (V(x) - E) * psi)`. -/
theorem schrodinger_spec (psi dpsi x : ℚ) (potential : ℚ → ℚ) (energy : ℚ) :
    schrodinger (psi, dpsi) x potential energy
      = (dpsi, 2 * (potential x - energy) * psi) :=
  rfl

set_option maxHeartbeats 1600000 in
/-- C3: for every quadrature backend, potential and strictly increasing
grid of `n ≥ 3` points, `matrice_potentiel` is symmetric, vanishes outside
the `(n-2) × (n-2)` range and off the three central diagonals, its diagonal
entry at output index `i` (interior site `s = i + 1`) is the quadrature of
`potentiel · pente_pos(·, s)²` over `[x_{s-1}, x_s]` plus that of
`potentiel · pente_neg(·, s)²` over `[x_s, x_{s+1}]`, its off-diagonal
entries between sites `s` and `s + 1` are the quadrature of
`potentiel · pente_pos(·, s+1) · pente_neg(·, s)` over `[x_s, x_{s+1}]`;
and for the points `[0,1,2,3,4]` with potential `x ↦ x²` (the quadrature
being exact on these polynomial integrands) every entry is within `1e-3`
of `[[0.733, 0.383, 0], [0.383, 2.733, 1.05], [0, 1.05, 6.067]]`. -/
theorem matrice_potentiel_spec (quad : (ℚ → ℚ) → ℚ → ℚ → ℚ)
    (potentiel : ℚ → ℚ) (points : List ℚ)
    (h3 : 3 ≤ points.length) (hinc : points.Chain' (· < ·)) :
    (∀ i j, matrice_potentiel quad potentiel points i j
      = matrice_potentiel quad potentiel points j i) ∧
    (∀ i j, points.length - 2 ≤ i ∨ points.length - 2 ≤ j →
      matrice_potentiel quad potentiel points i j = 0) ∧
    (∀ i j, i + 2 ≤ j ∨ j + 2 ≤ i →
      matrice_potentiel quad potentiel points i j = 0) ∧
    (∀ i, i < points.length - 2 →
      matrice_potentiel quad potentiel points i i
        = quad (fun x => potentiel x * pente_pos points x (i + 1) ^ 2)
            (xval points i) (xval points (i + 1))
          + quad (fun x => potentiel x * pente_neg points x (i + 1) ^ 2)
            (xval points (i + 1)) (xval points (i + 2))) ∧
    (∀ i, i + 1 < points.length - 2 →
      matrice_potentiel quad potentiel points i (i + 1)
          = quad (fun x => potentiel x * pente_pos points x (i + 2)
              * pente_neg points x (i + 1))
            (xval points (i + 1)) (xval points (i + 2)) ∧
        matrice_potentiel quad potentiel points (i + 1) i
          = quad (fun x => potentiel x * pente_pos points x (i + 2)
              * pente_neg points x (i + 1))
            (xval points (i + 1)) (xval points (i + 2))) ∧
    (∀ i, i < 3 → ∀ j, j < 3 →
      |matrice_potentiel boole (fun x => x ^ 2) [0, 1, 2, 3, 4] i j
        - ([[733/1000, 383/1000, 0], [383/1000, 2733/1000, 1050/1000],
            [0, 1050/1000, 6067/1000]].getD i []).getD j 0| ≤ 1/1000) := by
  refine ⟨fun i j => tridiagEntry_symm _ _ _ i j,
    fun i j h => tridiagEntry_outside _ _ _ i j h,
    fun i j h => tridiagEntry_far _ _ _ i j h,
    fun i h => tridiagEntry_diag _ _ _ i h,
    fun i h => tridiagEntry_off _ _ _ i h, ?_⟩
  intro i hi j hj
  interval_cases i <;> interval_cases j <;>
    · rw [abs_le]
      constructor <;>
        norm_num [matrice_potentiel, tridiagEntry, boole, pente_pos,
          pente_neg, xval]

/-- C3 witness: the theorem applied on the grid `[0,1,2,3,4]` with the
Boole quadrature and the potential `x ↦ x²`, extracting the quadrature
form of the `(0,0)` diagonal entry. -/
theorem matrice_potentiel_spec_witness :
    matrice_potentiel boole (fun x => x ^ 2) [0, 1, 2, 3, 4] 0 0
      = boole (fun x => x ^ 2 * pente_pos [0, 1, 2, 3, 4] x 1 ^ 2)
          (xval [0, 1, 2, 3, 4] 0) (xval [0, 1, 2, 3, 4] 1)
        + boole (fun x => x ^ 2 * pente_neg [0, 1, 2, 3, 4] x 1 ^ 2)
          (xval [0, 1, 2, 3, 4] 1) (xval [0, 1, 2, 3, 4] 2) :=
  (matrice_potentiel_spec boole (fun x => x ^ 2) [0, 1, 2, 3, 4]
    (by norm_num) (by norm_num [List.chain'_cons])).2.2.2.1 0 (by norm_num)

/-- C4: whenever the eigensolver backend reports all `n - 2` generalized
eigenpairs of the interior problem `H psi = E M psi` (with `H = -L/2 + V`)
in ascending eigenvalue order, `solve_shrodinger_using_fem` returns the
`n_states` lowest eigenenergies in ascending order together with their
eigenvectors padded with a zero at both boundaries, and fails with the
insufficient-dimension error exactly when `n_states` exceeds the number of
interior points. -/
theorem solve_shrodinger_using_fem_spec
    (eig : (ℕ → ℕ → ℚ) → (ℕ → ℕ → ℚ) → ℕ → List (ℚ × List ℚ))
    (quad : (ℚ → ℚ) → ℚ → ℚ → ℚ) (potential : ℚ → ℚ) (points : List ℚ)
    (n_states : ℕ)
    (hlen : (femPairs eig quad potential points).length = points.length - 2)
    (hsort : List.Chain' (· ≤ ·)
      ((femPairs eig quad potential points).map Prod.fst))
    (hok : ∀ p ∈ femPairs eig quad potential points,
      eigenPairOK (hamiltonien quad potential points)
        (matrice_masse_interne points) (points.length - 2) p) :
    (points.length - 2 < n_states →
      solve_shrodinger_using_fem eig quad potential points n_states
        = .error .insufficientDimension) ∧
    (n_states ≤ points.length - 2 →
      ∃ E S, solve_shrodinger_using_fem eig quad potential points n_states
          = .ok (E, S) ∧
        E.length = n_states ∧ S.length = n_states ∧
        List.Chain' (· ≤ ·) E ∧
        (∀ k, k < n_states → ∃ psi,
          S.getD k [] = 0 :: psi ++ [0] ∧
          eigenPairOK (hamiltonien quad potential points)
            (matrice_masse_interne points) (points.length - 2)
            (E.getD k 0, psi))) := by
  constructor
  · intro h
    rw [solve_shrodinger_using_fem, if_pos h]
  · intro h
    refine ⟨((femPairs eig quad potential points).take n_states).map Prod.fst,
      ((femPairs eig quad potential points).take n_states).map
        (fun p => 0 :: p.2 ++ [0]), ?_, ?_, ?_, ?_, ?_⟩
    · rw [solve_shrodinger_using_fem, if_neg (by omega)]
    · rw [List.length_map, List.length_take, hlen]; omega
    · rw [List.length_map, List.length_take, hlen]; omega
    · rw [List.map_take]
      exact List.Chain'.take hsort _
    · intro k hk
      have hkP : k < ((femPairs eig quad potential points).take n_states).length := by
        rw [List.length_take, hlen]; omega
      have hkE : k < (((femPairs eig quad potential points).take n_states).map
          Prod.fst).length := by
        rw [List.length_map]; exact hkP
      have hkS : k < (((femPairs eig quad potential points).take n_states).map
          (fun p => 0 :: p.2 ++ [0])).length := by
        rw [List.length_map]; exact hkP
      refine ⟨(((femPairs eig quad potential points).take n_states).get
        ⟨k, hkP⟩).2, ?_, ?_⟩
      · rw [List.getD_eq_getElem _ _ hkS, List.getElem_map]
        simp [List.get_eq_getElem]
      · rw [List.getD_eq_getElem _ _ hkE, List.getElem_map]
        have hmem : ((femPairs eig quad potential points).take n_states).get
            ⟨k, hkP⟩ ∈ femPairs eig quad potential points := by
          exact List.mem_of_mem_take (List.get_mem _ _ _)
        simpa [List.get_eq_getElem] using hok _ hmem

/-- C4 witness: the theorem applied to the grid `[0, 1, 2]` (one interior
point), the zero potential and the backend reporting the single
generalized eigenpair `(3/2, [1])` of `H = [1]`, `M = [2/3]`. -/
theorem solve_shrodinger_using_fem_spec_witness :
    ∃ E S, solve_shrodinger_using_fem (fun _ _ _ => [((3 : ℚ)/2, [(1 : ℚ)])])
        boole (fun _ => 0) [0, 1, 2] 1 = .ok (E, S) ∧
      E.length = 1 ∧ S.length = 1 ∧
      List.Chain' (· ≤ ·) E ∧
      (∀ k, k < 1 → ∃ psi,
        S.getD k [] = 0 :: psi ++ [0] ∧
        eigenPairOK (hamiltonien boole (fun _ => 0) [0, 1, 2])
          (matrice_masse_interne [0, 1, 2]) 1
          (E.getD k 0, psi)) :=
  (solve_shrodinger_using_fem_spec (fun _ _ _ => [((3 : ℚ)/2, [(1 : ℚ)])])
    boole (fun _ => 0) [0, 1, 2] 1 rfl (by simp [femPairs])
    (by
      intro p hp
      simp only [femPairs, List.mem_singleton] at hp
      subst hp
      refine ⟨rfl, ?_⟩
      norm_num [matVec, hamiltonien, matrice_masse_interne,
        matrice_laplacienne_interne, matrice_potentiel, tridiagEntry, boole,
        pente_pos, pente_neg, xval, List.range_succ])).2 (by norm_num)

/-- The bisection refinement never leaves the bracket it was given. -/
theorem bisect_mem (f : ℚ → ℚ) (fuel : ℕ) (a b : ℚ) (hab : a ≤ b) :
    a ≤ bisect f fuel a b ∧ bisect f fuel a b ≤ b := by
  induction fuel generalizing a b with
  | zero =>
    constructor <;> simp only [bisect] <;> linarith
  | succ n ih =>
    rw [bisect]
    split_ifs with h1 h2 h3
    · exact ⟨le_refl a, hab⟩
    · exact ⟨hab, le_refl b⟩
    · have hm : a ≤ (a + b) / 2 := by linarith
      have hr := ih ((a + b) / 2) b (by linarith)
      exact ⟨le_trans hm hr.1, hr.2⟩
    · have hm : (a + b) / 2 ≤ b := by linarith
      have hr := ih a ((a + b) / 2) (by linarith)
      exact ⟨hr.1, le_trans hr.2 hm⟩

/-- Case analysis of the scanning loop: either it gives up returning
`(x0, false)`, or it found a sign-change bracket of width `scanDelta` at
some scanned offset and returned a refined point inside it. -/
theorem scope_go_cases (f : ℚ → ℚ) (x0 : ℚ) (k fuel : ℕ) :
    ((scope_go f x0 k fuel).2 = false → scope_go f x0 k fuel = (x0, false)) ∧
    ((scope_go f x0 k fuel).2 = true → ∃ j, k ≤ j ∧ j < k + fuel ∧
      ∃ a b, ((a = x0 + (j : ℚ) * scanDelta ∧ b = x0 + ((j : ℚ) + 1) * scanDelta)
          ∨ (a = x0 - ((j : ℚ) + 1) * scanDelta ∧ b = x0 - (j : ℚ) * scanDelta)) ∧
        b - a = scanDelta ∧ a < b ∧ signQ (f a) ≠ signQ (f b) ∧
        a ≤ (scope_go f x0 k fuel).1 ∧ (scope_go f x0 k fuel).1 ≤ b) := by
  induction fuel generalizing k with
  | zero =>
    refine ⟨fun _ => rfl, fun h => ?_⟩
    simp [scope_go] at h
  | succ n ih =>
    rw [scope_go]
    split_ifs with h1 h2
    · refine ⟨fun h => by simp at h, fun _ => ⟨k, le_refl k, by omega, ?_⟩⟩
      refine ⟨x0 + (k : ℚ) * scanDelta, x0 + ((k : ℚ) + 1) * scanDelta,
        Or.inl ⟨rfl, rfl⟩, by ring, ?_, Ne.symm h1, ?_⟩
      · have : (0 : ℚ) < scanDelta := by norm_num [scanDelta]
        linarith
      · exact bisect_mem f 60 _ _ (by
          have : (0 : ℚ) < scanDelta := by norm_num [scanDelta]
          linarith)
    · refine ⟨fun h => by simp at h, fun _ => ⟨k, le_refl k, by omega, ?_⟩⟩
      refine ⟨x0 - ((k : ℚ) + 1) * scanDelta, x0 - (k : ℚ) * scanDelta,
        Or.inr ⟨rfl, rfl⟩, by ring, ?_, h2, ?_⟩
      · have : (0 : ℚ) < scanDelta := by norm_num [scanDelta]
        linarith
      · exact bisect_mem f 60 _ _ (by
          have : (0 : ℚ) < scanDelta := by norm_num [scanDelta]
          linarith)
    · have hr := ih (k + 1)
      refine ⟨hr.1, fun h => ?_⟩
      obtain ⟨j, hj1, hj2, rest⟩ := hr.2 h
      exact ⟨j, by omega, by omega, rest⟩

/-- C6 (amended): for every function, start `x0` and iteration cap,
`scope_roots` either returns `(x0, false)` after `max_iters` sign-change-
free iterations (a soft failure, not an error), or returns `(root, true)`
with the root inside a width-`1e-3` bracket `[a, b]` at a scanned offset
from `x0` whose endpoint signs of `f` differ.  The sign-flip property of
the original claim holds only through such a bracket being found; it
fails when the scan budget does not reach a sign change (see the
counterexample at `x0 = 0`). -/
theorem scope_roots_spec (f : ℚ → ℚ) (x0 : ℚ) (max_iters : ℕ) :
    ((scope_roots f x0 max_iters).2 = false →
      scope_roots f x0 max_iters = (x0, false)) ∧
    ((scope_roots f x0 max_iters).2 = true → ∃ j, j < max_iters ∧
      ∃ a b, ((a = x0 + (j : ℚ) * scanDelta ∧ b = x0 + ((j : ℚ) + 1) * scanDelta)
          ∨ (a = x0 - ((j : ℚ) + 1) * scanDelta ∧ b = x0 - (j : ℚ) * scanDelta)) ∧
        b - a = scanDelta ∧ a < b ∧ signQ (f a) ≠ signQ (f b) ∧
        a ≤ (scope_roots f x0 max_iters).1 ∧
        (scope_roots f x0 max_iters).1 ≤ b) := by
  have h := scope_go_cases f x0 0 max_iters
  refine ⟨h.1, fun ht => ?_⟩
  obtain ⟨j, _, hj2, rest⟩ := h.2 ht
  exact ⟨j, by omega, rest⟩

/-- C6 counterexample: for `f(x) = x² - 1` and the start `x0 = 0 ∈ [-1, 1]`
with iteration cap `1`, the scan (steps of `1e-3`) meets no sign change,
`scope_roots` returns `(0, false)`, and the function value at the returned
point has the same sign as `f(x0)` — not the opposite sign the claim
asserts for every `x0` in `[-1, 1]`. -/
theorem scope_roots_counterexample :
    scope_roots (fun x => x ^ 2 - 1) 0 1 = (0, false) ∧
    signQ ((fun x : ℚ => x ^ 2 - 1) (scope_roots (fun x => x ^ 2 - 1) 0 1).1)
      = signQ ((fun x : ℚ => x ^ 2 - 1) 0) := by
  have h : scope_roots (fun x : ℚ => x ^ 2 - 1) 0 1 = (0, false) := by
    rw [scope_roots, scope_go]
    norm_num [signQ, scanDelta, scope_go]
  exact ⟨h, by rw [h]⟩

/-- C6 (amended) witness: the theorem applied to `f(x) = x² - 1` starting
at `x0 = 999/1000`, where the very first outward step reaches the root
`x = 1` and a sign change (`0` vs `-1`) is detected. -/
theorem scope_roots_spec_witness :
    ∃ j : ℕ, j < 5 ∧ ∃ a b,
      ((a = (999 : ℚ)/1000 + (j : ℚ) * scanDelta
          ∧ b = (999 : ℚ)/1000 + ((j : ℚ) + 1) * scanDelta)
        ∨ (a = (999 : ℚ)/1000 - ((j : ℚ) + 1) * scanDelta
          ∧ b = (999 : ℚ)/1000 - (j : ℚ) * scanDelta)) ∧
      b - a = scanDelta ∧ a < b ∧
      signQ ((fun x : ℚ => x ^ 2 - 1) a) ≠ signQ ((fun x : ℚ => x ^ 2 - 1) b) ∧
      a ≤ (scope_roots (fun x : ℚ => x ^ 2 - 1) (999/1000) 5).1 ∧
      (scope_roots (fun x : ℚ => x ^ 2 - 1) (999/1000) 5).1 ≤ b :=
  (scope_roots_spec (fun x => x ^ 2 - 1) (999/1000) 5).2
    (by norm_num [scope_roots, scope_go, signQ, scanDelta])

theorem trapArea_cons (s0 s1 x0 x1 : ℝ) (ss xx : List ℝ) :
    trapArea (s0 :: s1 :: ss) (x0 :: x1 :: xx)
      = 1 / 2 * (s0 * s0 + s1 * s1) * (x1 - x0)
        + trapArea (s1 :: ss) (x1 :: xx) := rfl

theorem trapArea_short_left (state xs : List ℝ)
    (h : state.length ≤ 1) : trapArea state xs = 0 := by
  match state, h with
  | [], _ => rfl
  | [s], _ => rfl

theorem trapArea_short_right (state xs : List ℝ)
    (h : xs.length ≤ 1) : trapArea state xs = 0 := by
  match state, xs, h with
  | [], _, _ => rfl
  | [s], _, _ => rfl
  | s0 :: s1 :: ss, [], _ => rfl
  | s0 :: s1 :: ss, [x], _ => rfl

/-- On a non-decreasing abscissa list the trapezoidal integral of a square
is nonnegative. -/
theorem trapArea_nonneg (state xs : List ℝ) (hxs : xs.Chain' (· ≤ ·)) :
    0 ≤ trapArea state xs := by
  induction state generalizing xs with
  | nil => rw [trapArea_short_left _ _ (by simp)]
  | cons s0 rest ih =>
    cases rest with
    | nil => rw [trapArea_short_left _ _ (by simp)]
    | cons s1 ss =>
      cases xs with
      | nil => rw [trapArea_short_right _ _ (by simp)]
      | cons x0 xt =>
        cases xt with
        | nil => rw [trapArea_short_right _ _ (by simp)]
        | cons x1 xx =>
          rw [trapArea_cons]
          have hx : x0 ≤ x1 := (List.chain'_cons.mp hxs).1
          have ht := ih (x1 :: xx) (List.chain'_cons.mp hxs).2
          have h1 : (0 : ℝ) ≤ s0 * s0 + s1 * s1 :=
            add_nonneg (mul_self_nonneg s0) (mul_self_nonneg s1)
          have hterm : 0 ≤ 1 / 2 * (s0 * s0 + s1 * s1) * (x1 - x0) :=
            mul_nonneg (mul_nonneg (by norm_num) h1) (by linarith)
          linarith

/-- Dividing every sample by `c` divides the trapezoidal integral of the
square by `c * c` (also when `c = 0`, with the junk value `x / 0 = 0`). -/
theorem trapArea_div (state xs : List ℝ) (c : ℝ) :
    trapArea (state.map fun v => v / c) xs = trapArea state xs / (c * c) := by
  induction state generalizing xs with
  | nil =>
    rw [trapArea_short_left _ _ (by simp), trapArea_short_left _ _ (by simp)]
    rw [zero_div]
  | cons s0 rest ih =>
    cases rest with
    | nil =>
      rw [trapArea_short_left _ _ (by simp), trapArea_short_left _ _ (by simp)]
      rw [zero_div]
    | cons s1 ss =>
      cases xs with
      | nil =>
        rw [trapArea_short_right _ _ (by simp),
          trapArea_short_right _ _ (by simp), zero_div]
      | cons x0 xt =>
        cases xt with
        | nil =>
          rw [trapArea_short_right _ _ (by simp),
            trapArea_short_right _ _ (by simp), zero_div]
        | cons x1 xx =>
          simp only [List.map_cons]
          rw [trapArea_cons, trapArea_cons]
          have ht := ih (x1 :: xx)
          simp only [List.map_cons] at ht
          rw [ht]
          by_cases hc : c = 0
          · subst hc
            simp
          · field_simp
            ring

/-- C8: `normalise` divides the state vector by the square root of its
trapezoidal integral, and on a strictly increasing abscissa list with a
nonzero trapezoidal integral the trapezoidal integral of the square of the
returned vector is exactly `1`. -/
theorem normalise_spec (state xs : List ℝ)
    (hlen : state.length = xs.length) (h2 : 2 ≤ xs.length)
    (hinc : xs.Chain' (· < ·)) (hA : trapArea state xs ≠ 0) :
    normalise state xs
        = state.map (fun v => v / Real.sqrt (trapArea state xs)) ∧
    trapArea (normalise state xs) xs = 1 := by
  refine ⟨rfl, ?_⟩
  have hle : xs.Chain' (· ≤ ·) := List.Chain'.imp (fun a b h => le_of_lt h) hinc
  have h0 : 0 ≤ trapArea state xs := trapArea_nonneg state xs hle
  rw [normalise, trapArea_div, Real.mul_self_sqrt h0, div_self hA]

/-- C8 witness: the theorem applied to the state `[1, 1]` on the abscissas
`[0, 1]`, whose trapezoidal integral is already `1`. -/
theorem normalise_spec_witness :
    trapArea (normalise [1, 1] [0, 1]) [0, 1] = 1 :=
  (normalise_spec [1, 1] [0, 1] rfl (by norm_num)
    (by norm_num [List.chain'_cons])
    (by rw [trapArea_cons, trapArea_short_left _ _ (by simp)]; norm_num)).2
